import Mathlib

/-!
Verification of the V8 `DescriptorArray` (property descriptor table) against
its specification.  The repository slice contains only the class header
`src/objects/descriptor-array.h`; its layout constants (`DESCRIPTOR_ARRAY_FIELDS`,
`kEntrySize`, `ToKeyIndex`/`ToDetailsIndex`/`ToValueIndex`, `SizeFor`,
`OffsetOfDescriptorAt`, `offset`, `kNotFound`) are embedded directly from the
source.  The bodies of the behavioural operations (`Search`, `Append`,
`Initialize`, `CopyUpTo`, `CopyUpToAddAttributes`, `Sort`, `Allocate`,
`GetFieldType`, `IsEqualUpTo`) live in files outside the slice, so those
operations are modelled from the specification text, each marked
`Modelled from the spec:` in its doc comment.
-/

namespace DescriptorArray

/-! ## Layout constants, embedded from the source header

The macro `DEFINE_FIELD_OFFSET_CONSTANTS(HeapObject::kHeaderSize,
DESCRIPTOR_ARRAY_FIELDS)` lays fields out sequentially starting at
`HeapObject::kHeaderSize`.  `HeapObject::kHeaderSize` and `kTaggedSize` are
defined outside the slice, so they are carried as parameters `base` and
`taggedSize`; everything else is the source's arithmetic verbatim.
-/

/-- `kUInt16Size`: width of one 16-bit header field, in bytes. -/
def kUInt16Size : Nat := 2

/-- `V(kNumberOfAllDescriptorsOffset, kUInt16Size)`: first field of the header. -/
def kNumberOfAllDescriptorsOffset (base : Nat) : Nat := base

/-- `V(kNumberOfDescriptorsOffset, kUInt16Size)`. -/
def kNumberOfDescriptorsOffset (base : Nat) : Nat :=
  kNumberOfAllDescriptorsOffset base + kUInt16Size

/-- `V(kNumberOfMarkedDescriptorsOffset, kUInt16Size)`. -/
def kNumberOfMarkedDescriptorsOffset (base : Nat) : Nat :=
  kNumberOfDescriptorsOffset base + kUInt16Size

/-- `V(kFiller16BitsOffset, kUInt16Size)`. -/
def kFiller16BitsOffset (base : Nat) : Nat :=
  kNumberOfMarkedDescriptorsOffset base + kUInt16Size

/-- `V(kPointersStartOffset, 0)`. -/
def kPointersStartOffset (base : Nat) : Nat :=
  kFiller16BitsOffset base + kUInt16Size

/-- `V(kEnumCacheOffset, kTaggedSize)`. -/
def kEnumCacheOffset (base : Nat) : Nat :=
  kPointersStartOffset base

/-- `V(kHeaderSize, 0)`: total header size, everything before the records. -/
def kHeaderSize (base taggedSize : Nat) : Nat :=
  kEnumCacheOffset base + taggedSize

/-- `static const int kEntryKeyIndex = 0;` -/
def kEntryKeyIndex : Nat := 0

/-- `static const int kEntryDetailsIndex = 1;` -/
def kEntryDetailsIndex : Nat := 1

/-- `static const int kEntryValueIndex = 2;` -/
def kEntryValueIndex : Nat := 2

/-- `static const int kEntrySize = 3;` -/
def kEntrySize : Nat := 3

/-- `static const int kNotFound = -1;` -/
def kNotFound : Int := -1

/-- `ToKeyIndex(d) = d * kEntrySize + kEntryKeyIndex` (source, line 196). -/
def ToKeyIndex (descriptor_number : Nat) : Nat :=
  descriptor_number * kEntrySize + kEntryKeyIndex

/-- `ToDetailsIndex(d) = d * kEntrySize + kEntryDetailsIndex` (source, line 191). -/
def ToDetailsIndex (descriptor_number : Nat) : Nat :=
  descriptor_number * kEntrySize + kEntryDetailsIndex

/-- `ToValueIndex(d) = d * kEntrySize + kEntryValueIndex` (source, line 200). -/
def ToValueIndex (descriptor_number : Nat) : Nat :=
  descriptor_number * kEntrySize + kEntryValueIndex

/-- `offset(index) = kHeaderSize + index * kTaggedSize` (source, line 207). -/
def offset (base taggedSize index : Nat) : Nat :=
  kHeaderSize base taggedSize + index * taggedSize

/-- `SizeFor(n) = offset(n * kEntrySize)` (source, line 155). -/
def SizeFor (base taggedSize number_of_all_descriptors : Nat) : Nat :=
  offset base taggedSize (number_of_all_descriptors * kEntrySize)

/-- `OffsetOfDescriptorAt(d) = offset(d * kEntrySize)` (source, line 158). -/
def OffsetOfDescriptorAt (base taggedSize descriptor : Nat) : Nat :=
  offset base taggedSize (descriptor * kEntrySize)

/-! ## Behavioural model

The bodies of the table operations are not in the repository slice (only their
declarations in `descriptor-array.h` are), so the state and the operations are
modelled from the specification text, §3 and §4.1 of the spec.  Property keys
are interned, globally unique names, so they are modelled by their identity as
a `Nat`; the property-details word is an opaque packed value, modelled as a
structure exposing the pieces the spec talks about (attribute bits, the
enumeration-order tag, the sorted-order position tag, and the remaining opaque
payload).
-/

/-- Modelled from the spec: the opaque packed `PropertyDetails` word
(§3 "details"); `PropertyDetails` itself is declared outside the slice.
`attributes` are the attribute bits, `enumerationIndex` the record's position
in enumeration order, `pointer` the sorted-order position tag used by
`GetSortedKey`, and `payload` the remaining packed bits (kind, location,
representation, constness), opaque to this spec. -/
structure PropertyDetails where
  attributes : Nat
  enumerationIndex : Nat
  pointer : Nat
  payload : Nat
  deriving DecidableEq

/-- Modelled from the spec: the `value_or_type` slot (§3).  A strong reference
to a stored value (constants/accessors), a weak reference to a constraining
shape descriptor (`weakConstraint (some m)`; `weakConstraint none` is a weak
slot whose target has been collected), or the shared strong "no constraint"
sentinel. -/
inductive ValueSlot where
  | strongValue (v : Nat)
  | weakConstraint (target : Option Nat)
  | noConstraint
  deriving DecidableEq

/-- Modelled from the spec: one descriptor record, the (key, details,
value-or-type) triple of §3. -/
structure Record where
  key : Nat
  details : PropertyDetails
  value : ValueSlot
  deriving DecidableEq

/-- Modelled from the spec: identity of the shared empty-string sentinel key
used by the initialization placeholder. -/
def kEmptyStringSentinel : Nat := 0

/-- Modelled from the spec: the all-empty details word of the initialization
placeholder. -/
def emptyDetails : PropertyDetails :=
  { attributes := 0, enumerationIndex := 0, pointer := 0, payload := 0 }

/-- Modelled from the spec: the initialization placeholder record — key is the
shared empty-string sentinel, details are empty, the value is the shared
"no constraint" singleton (§4.1 Initialize). -/
def placeholderRecord : Record :=
  { key := kEmptyStringSentinel, details := emptyDetails, value := ValueSlot.noConstraint }

instance : Inhabited Record := ⟨placeholderRecord⟩

/-- Modelled from the spec: the descriptor table state — the bit-packed header
fields of §3 plus the record region.  The record region is a list whose length
is the capacity (`number_of_all_descriptors`); the header field names are the
source's. -/
structure DescriptorTable where
  number_of_all_descriptors : Nat
  number_of_descriptors : Nat
  number_of_marked_descriptors : Nat
  enum_cache : Nat
  records : List Record
  deriving DecidableEq

/-- Read record `i` of the record region (out-of-range reads, which the spec
leaves as undefined precondition violations, default to the placeholder). -/
def getRecord (t : DescriptorTable) (i : Nat) : Record :=
  t.records.getD i placeholderRecord

/-- `GetKey(i)`: the key slot of record `i`. -/
def getKey (t : DescriptorTable) (i : Nat) : Nat :=
  (getRecord t i).key

/-- `GetDetails(i)`: the details slot of record `i`. -/
def getDetails (t : DescriptorTable) (i : Nat) : PropertyDetails :=
  (getRecord t i).details

/-- `GetSortedKeyIndex(j)`: the sorted-order position tag carried by record
`j`'s details — the physical index of the `j`-th key in hash order. -/
def sortedKeyIndex (t : DescriptorTable) (j : Nat) : Nat :=
  (getDetails t j).pointer

/-- `GetSortedKey(j)`: the `j`-th key in hash order. -/
def getSortedKey (t : DescriptorTable) (j : Nat) : Nat :=
  getKey t (sortedKeyIndex t j)

/-- Modelled from the spec: `Initialize` (§4.1) — its body is outside the
slice.  Builds a table of capacity `nof + slack` in which every slot of
`[0, capacity)` holds the placeholder, installs the given enumeration cache,
and resets the mark count. -/
def initTable (enumCache nof slack : Nat) : DescriptorTable :=
  { number_of_all_descriptors := nof + slack
    number_of_descriptors := nof
    number_of_marked_descriptors := 0
    enum_cache := enumCache
    records := List.replicate (nof + slack) placeholderRecord }

/-- Modelled from the spec: the argument record handed to `Append`/`Set`
(`Descriptor* desc`), declared outside the slice. -/
structure Descriptor where
  key : Nat
  details : PropertyDetails
  value : ValueSlot
  deriving DecidableEq

/-- Overwrite the enumeration-order tag of a details word. -/
def withEnumerationIndex (d : PropertyDetails) (n : Nat) : PropertyDetails :=
  { d with enumerationIndex := n }

/-- Modelled from the spec: the fully populated record that `Append` (§4.1)
writes — the descriptor's key and value, with the enumeration-order tag of its
details auto-assigned to the current `active_count`. -/
def appendedRecord (t : DescriptorTable) (d : Descriptor) : Record :=
  { key := d.key
    details := withEnumerationIndex d.details t.number_of_descriptors
    value := d.value }

/-- Modelled from the spec: the record-population step writes the fully
populated record (with the auto-assigned enumeration-order tag) into the slot
at the current `active_count`. -/
def appendWriteRecord (t : DescriptorTable) (d : Descriptor) : DescriptorTable :=
  { t with records := t.records.set t.number_of_descriptors (appendedRecord t d) }

/-- Modelled from the spec: the publishing phase of `Append` (§4.1) — the
single `active_count` increment that makes the new record visible. -/
def publish (t : DescriptorTable) : DescriptorTable :=
  { t with number_of_descriptors := t.number_of_descriptors + 1 }

/-- Modelled from the spec: `Append` (§4.1) — its body is outside the slice.
Populate first, then publish. -/
def append (t : DescriptorTable) (d : Descriptor) : DescriptorTable :=
  publish (appendWriteRecord t d)

/-- Modelled from the spec: `CopyUpTo` (§4.1) — its body is outside the slice.
A new table of capacity `n + slack` holding a verbatim copy of records
`[0, n)` of `src`, the remaining slots being the placeholder. -/
def copyUpTo (src : DescriptorTable) (n slack : Nat) : DescriptorTable :=
  { number_of_all_descriptors := n + slack
    number_of_descriptors := n
    number_of_marked_descriptors := 0
    enum_cache := src.enum_cache
    records := (List.range (n + slack)).map
      (fun i => if i < n then getRecord src i else placeholderRecord) }

/-- Modelled from the spec: `IsEqualUpTo` (§4.1) — its body is outside the
slice.  Compares the first `n` records field by field. -/
def isEqualUpTo (t other : DescriptorTable) (n : Nat) : Bool :=
  (List.range n).all (fun i => decide (getRecord t i = getRecord other i))

/-- Overlay extra attribute bits onto a record's details, leaving everything
else untouched. -/
def overlayAttributes (r : Record) (attributes : Nat) : Record :=
  { r with details := { r.details with attributes := r.details.attributes ||| attributes } }

/-- Modelled from the spec: `CopyUpToAddAttributes` (§4.1) — its body is
outside the slice.  Same as `copyUpTo`, but the details of every copied
record overlay the given additional attribute bits. -/
def copyUpToAddAttributes (src : DescriptorTable) (n attributes slack : Nat) :
    DescriptorTable :=
  { number_of_all_descriptors := n + slack
    number_of_descriptors := n
    number_of_marked_descriptors := 0
    enum_cache := src.enum_cache
    records := (List.range (n + slack)).map
      (fun i => if i < n then overlayAttributes (getRecord src i) attributes
                else placeholderRecord) }

/-- The zero-capacity table, contents of the shared empty singleton. -/
def emptyTable : DescriptorTable := initTable 0 0 0

/-- Modelled from the spec: table identity for the allocation model — either
the shared empty singleton or a freshly allocated table tagged with a fresh
allocation id. -/
inductive TableRef where
  | emptySingleton
  | allocated (id : Nat) (t : DescriptorTable)
  deriving DecidableEq

/-- Modelled from the spec: `Allocate` (§4.1) — its body is outside the slice;
the header's own comment says it "returns the singleton empty descriptor array
object if number_of_descriptors is 0".  The allocator is modelled by a fresh-id
counter: allocating returns a reference and the next counter state; returning
the shared singleton consumes no fresh id. -/
def allocate (nextId nof slack : Nat) : TableRef × Nat :=
  if nof = 0 then (TableRef.emptySingleton, nextId)
  else (TableRef.allocated nextId (initTable 0 nof slack), nextId + 1)

/-- Modelled from the spec: a heap of tables, for stating frame properties of
the derivation operations; a reference is an index into the heap. -/
def copyUpToAddAttributesOnHeap (heap : List DescriptorTable)
    (srcRef n attributes slack : Nat) : List DescriptorTable × Nat :=
  (heap ++ [copyUpToAddAttributes (heap.getD srcRef emptyTable) n attributes slack],
   heap.length)

/-- Overwrite the sorted-order position tag of a record's details, leaving
everything else untouched (`SetSortedKey`). -/
def setPointer (r : Record) (p : Nat) : Record :=
  { r with details := { r.details with pointer := p } }

/-- Stable insertion of an index into a sorted list of indices. -/
def insertSorted (le : Nat → Nat → Bool) (x : Nat) : List Nat → List Nat
  | [] => [x]
  | y :: ys => if le x y then x :: y :: ys else y :: insertSorted le x ys

/-- Stable insertion sort over a list of indices. -/
def insertionSort (le : Nat → Nat → Bool) : List Nat → List Nat
  | [] => []
  | x :: xs => insertSorted le x (insertionSort le xs)

/-- Modelled from the spec: the comparison used by `Sort` (§4.1) — by key
hash, with key identity as the deterministic tie-break. -/
def sortLE (hash : Nat → Nat) (t : DescriptorTable) (i j : Nat) : Bool :=
  hash (getKey t i) < hash (getKey t j) ||
    (hash (getKey t i) == hash (getKey t j) && getKey t i ≤ getKey t j)

/-- Modelled from the spec: the hash-order permutation computed by `Sort` —
the physical indices `[0, active_count)` stably sorted by (hash, key). -/
def sortedPermutation (hash : Nat → Nat) (t : DescriptorTable) : List Nat :=
  insertionSort (sortLE hash t) (List.range t.number_of_descriptors)

/-- Modelled from the spec: `Sort` (§4.1) — its body is outside the slice.
Records are never physically moved: the only change is that record `j` of
`[0, active_count)` receives the hash-order position tag (the physical index
of the `j`-th key in hash order) in its details' `pointer` field. -/
def sortTable (hash : Nat → Nat) (t : DescriptorTable) : DescriptorTable :=
  let n := t.number_of_descriptors
  let perm := sortedPermutation hash t
  let rs := (List.range t.records.length).map
    (fun i => if i < n then setPointer (getRecord t i) (perm.getD i 0) else getRecord t i)
  { t with records := rs }

/-- Modelled from the spec: the result type of `GetFieldType` — either a
constraint to a specific shape descriptor, or "unconstrained". -/
inductive FieldType where
  | unconstrained
  | constraint (target : Nat)
  deriving DecidableEq

/-- Modelled from the spec: unwrapping a value slot into a field type — a live
weak constraint reads as that constraint; a weak slot whose target was
collected degrades to "unconstrained", never dangling; the "no constraint"
sentinel and (conservatively) any strong value read as "unconstrained". -/
def unwrapFieldType (v : ValueSlot) : FieldType :=
  match v with
  | ValueSlot.weakConstraint (some m) => FieldType.constraint m
  | ValueSlot.weakConstraint none => FieldType.unconstrained
  | ValueSlot.noConstraint => FieldType.unconstrained
  | ValueSlot.strongValue _ => FieldType.unconstrained

/-- Modelled from the spec: `GetFieldType` (§4.1) — its body is outside the
slice.  A total read of record `i`'s value slot as a field type. -/
def getFieldType (t : DescriptorTable) (i : Nat) : FieldType :=
  unwrapFieldType (getRecord t i).value

/-- Modelled from the spec: clearing one weak slot whose target is dead (§5). -/
def clearWeakSlot (live : Nat → Bool) (r : Record) : Record :=
  match r.value with
  | ValueSlot.weakConstraint (some m) =>
      if live m then r else { r with value := ValueSlot.weakConstraint none }
  | _ => r

/-- Modelled from the spec: the collector clearing weak references (§5) — every
weak slot whose target is not live is cleared; all other slots are untouched. -/
def clearDeadWeakRefs (live : Nat → Bool) (t : DescriptorTable) : DescriptorTable :=
  { t with records := t.records.map (clearWeakSlot live) }

/-! ## Search -/

/-- The reference semantics of the spec sentence "linear scan of records
`[0, limit)`": scan upward from `i` for `rem` steps, returning the first index
whose key is `name`, else `kNotFound`. -/
def linearScanFrom (t : DescriptorTable) (name : Nat) : Nat → Nat → Int
  | _, 0 => kNotFound
  | i, rem + 1 => if getKey t i = name then (i : Int) else linearScanFrom t name (i + 1) rem

/-- Linear scan of records `[0, limit)` for the first index whose key is
`name`; `kNotFound` if absent. -/
def linearScan (t : DescriptorTable) (name limit : Nat) : Int :=
  linearScanFrom t name 0 limit

/-- Fuel-indexed lower-bound binary search: the least index in `[lo, hi]`
satisfying `P`, for an upward-closed `P`, provided `fuel ≥ hi - lo`. -/
def binSearchLowAux (P : Nat → Bool) : Nat → Nat → Nat → Nat
  | 0, lo, _ => lo
  | fuel + 1, lo, hi =>
    if lo < hi then
      if P (lo + (hi - lo) / 2) then binSearchLowAux P fuel lo (lo + (hi - lo) / 2)
      else binSearchLowAux P fuel (lo + (hi - lo) / 2 + 1) hi
    else lo

/-- Lower-bound binary search on `[lo, hi]`. -/
def binSearchLow (P : Nat → Bool) (lo hi : Nat) : Nat :=
  binSearchLowAux P (hi - lo) lo hi

/-- Modelled from the spec: the collision probe of `Search` (§4.1) — walk the
hash-ordered logical positions starting at `j`, for at most `rem` steps (the
rest of the sorted range); stop with `kNotFound` as soon as the hash differs
from the probe key's hash; on a key-identity hit at physical index `si`,
return `si` if the limit does not exclude it, else `kNotFound`. -/
def probeFrom (hash : Nat → Nat) (t : DescriptorTable) (name limit : Nat) :
    Nat → Nat → Int
  | _, 0 => kNotFound
  | j, rem + 1 =>
    if hash (getKey t (sortedKeyIndex t j)) ≠ hash name then kNotFound
    else if getKey t (sortedKeyIndex t j) = name then
      (if sortedKeyIndex t j < limit then (sortedKeyIndex t j : Int) else kNotFound)
    else probeFrom hash t name limit (j + 1) rem

/-- The predicate located by the lower-bound binary search of `search`: the
key hash at logical position `j` has reached the probe key's hash. -/
def searchPred (hash : Nat → Nat) (t : DescriptorTable) (name j : Nat) : Bool :=
  hash name ≤ hash (getSortedKey t j)

/-- Modelled from the spec: `Search` (§4.1) — its body is outside the slice.
Binary search over the hash-ordered logical index for the first position whose
key hash reaches the probe key's hash, then linear probe of the equal-hash
run comparing key identity; returns `kNotFound` if absent or if the `limit`
argument excludes all matching entries. -/
def search (hash : Nat → Nat) (t : DescriptorTable) (name limit : Nat) : Int :=
  probeFrom hash t name limit
    (binSearchLow (searchPred hash t name) 0 t.number_of_descriptors)
    (t.number_of_descriptors -
      binSearchLow (searchPred hash t name) 0 t.number_of_descriptors)

/-- The sortedness/uniqueness invariant that `Sort` establishes and `Search`
relies on: the position tags of `[0, active_count)` form a permutation of the
physical indices, key hashes are monotone along the tagged order, and keys of
live records are pairwise distinct. -/
def SortedInvariant (hash : Nat → Nat) (t : DescriptorTable) : Prop :=
  (∀ j, j < t.number_of_descriptors → sortedKeyIndex t j < t.number_of_descriptors) ∧
  (∀ i, i < t.number_of_descriptors →
    ∃ j, j < t.number_of_descriptors ∧ sortedKeyIndex t j = i) ∧
  (∀ j2, j2 < t.number_of_descriptors → ∀ j1, j1 ≤ j2 →
    hash (getSortedKey t j1) ≤ hash (getSortedKey t j2)) ∧
  (∀ i1, i1 < t.number_of_descriptors → ∀ i2, i2 < t.number_of_descriptors →
    getKey t i1 = getKey t i2 → i1 = i2)

instance instDecidableSortedInvariant (hash : Nat → Nat) (t : DescriptorTable) :
    Decidable (SortedInvariant hash t) := by
  unfold SortedInvariant
  infer_instance

/-- The GC-safety invariant of §3: every slot of the slack region
`[active_count, capacity)` holds the initialization placeholder. -/
def slackIsPlaceholder (t : DescriptorTable) : Prop :=
  ∀ i, i < t.number_of_all_descriptors → t.number_of_descriptors ≤ i →
    getRecord t i = placeholderRecord

instance instDecidableSlackIsPlaceholder (t : DescriptorTable) :
    Decidable (slackIsPlaceholder t) := by
  unfold slackIsPlaceholder
  infer_instance

/-! ## Concrete example states, used to instantiate the universally
quantified theorems below at explicit inputs -/

/-- A concrete one-record table of capacity 3 (slack slots hold the
placeholder). -/
def tAppend : DescriptorTable :=
  { number_of_all_descriptors := 3
    number_of_descriptors := 1
    number_of_marked_descriptors := 0
    enum_cache := 0
    records :=
      [{ key := 5, details := emptyDetails, value := ValueSlot.strongValue 1 },
       placeholderRecord, placeholderRecord] }

/-- A concrete descriptor to append. -/
def dExample : Descriptor :=
  { key := 9, details := emptyDetails, value := ValueSlot.strongValue 2 }

/-- A concrete one-record table whose record holds a weak type constraint on
shape descriptor `7`. -/
def tWeak : DescriptorTable :=
  { number_of_all_descriptors := 1
    number_of_descriptors := 1
    number_of_marked_descriptors := 0
    enum_cache := 0
    records :=
      [{ key := 5, details := emptyDetails, value := ValueSlot.weakConstraint (some 7) }] }

/-- A concrete hash function. -/
def hashMod7 : Nat → Nat := fun k => k % 7

/-- A concrete two-record table carrying the hash-order position tags for
`hashMod7` (hash 9 = 2 comes before hash 5 = 5, so logical position 0 maps to
physical index 1 and logical position 1 to physical index 0). -/
def tSorted : DescriptorTable :=
  { number_of_all_descriptors := 2
    number_of_descriptors := 2
    number_of_marked_descriptors := 0
    enum_cache := 0
    records :=
      [{ key := 5
         details := { attributes := 0, enumerationIndex := 0, pointer := 1, payload := 0 }
         value := ValueSlot.strongValue 1 },
       { key := 9
         details := { attributes := 0, enumerationIndex := 1, pointer := 0, payload := 0 }
         value := ValueSlot.strongValue 2 }] }

/-! ## Helper lemmas -/

theorem getD_map_range {α : Type} (f : Nat → α) (d : α) {m i : Nat} (h : i < m) :
    ((List.range m).map f).getD i d = f i := by
  rw [List.getD_eq_getElem?_getD, List.getElem?_map, List.getElem?_range h]
  rfl

theorem getD_map_range_ge {α : Type} (f : Nat → α) (d : α) {m i : Nat} (h : m ≤ i) :
    ((List.range m).map f).getD i d = d := by
  rw [List.getD_eq_getElem?_getD, List.getElem?_eq_none (by simpa using h)]
  rfl

theorem or_and_cancel (x a : Nat) : (x ||| a) &&& a = a := by
  apply Nat.eq_of_testBit_eq
  intro i
  simp only [Nat.testBit_and, Nat.testBit_or]
  cases h : a.testBit i <;> simp [h]

/-! ## Claims about the binary layout (settled against the source header) -/

/-- C2: the table's binary layout is exactly: capacity as 16 bits at offset 0,
active count as 16 bits at offset 2, marked count as 16 bits at offset 4, a
16-bit filler at offset 6, and the enum-cache reference at offset 8, all
relative to the header start `base`; the record region begins immediately
after the header, and record `i` occupies three consecutive reference-width
slots at `kHeaderSize + i * 3 * taggedSize` storing key, details, value in
that order. -/
theorem header_and_record_layout (base taggedSize i : Nat) :
    kNumberOfAllDescriptorsOffset base = base + 0 ∧
    kNumberOfDescriptorsOffset base = base + 2 ∧
    kNumberOfMarkedDescriptorsOffset base = base + 4 ∧
    kFiller16BitsOffset base = base + 6 ∧
    kEnumCacheOffset base = base + 8 ∧
    kNumberOfDescriptorsOffset base - kNumberOfAllDescriptorsOffset base = kUInt16Size ∧
    kHeaderSize base taggedSize = base + 8 + taggedSize ∧
    offset base taggedSize (ToKeyIndex 0) = kHeaderSize base taggedSize ∧
    offset base taggedSize (ToKeyIndex i) =
      kHeaderSize base taggedSize + i * 3 * taggedSize ∧
    offset base taggedSize (ToDetailsIndex i) =
      offset base taggedSize (ToKeyIndex i) + taggedSize ∧
    offset base taggedSize (ToValueIndex i) =
      offset base taggedSize (ToDetailsIndex i) + taggedSize := by
  refine ⟨?_, ?_, ?_, ?_, ?_, ?_, ?_, ?_, ?_, ?_, ?_⟩ <;>
    simp [kNumberOfAllDescriptorsOffset, kNumberOfDescriptorsOffset,
      kNumberOfMarkedDescriptorsOffset, kFiller16BitsOffset, kPointersStartOffset,
      kEnumCacheOffset, kHeaderSize, kUInt16Size, offset, ToKeyIndex, ToDetailsIndex,
      ToValueIndex, kEntrySize, kEntryKeyIndex, kEntryDetailsIndex, kEntryValueIndex] <;>
    ring

/-- C10: `SizeFor n` equals `OffsetOfDescriptorAt n` equals
`kHeaderSize + n * 3 * taggedSize`; for every record index `i < n`, each of
the three slots of record `i` lies at a byte offset in
`[kHeaderSize, SizeFor n)`; and the slack region begins exactly at
`OffsetOfDescriptorAt active_count`. -/
theorem record_slots_within_object_size (base taggedSize n i a : Nat)
    (hts : 0 < taggedSize) (hin : i < n) :
    SizeFor base taggedSize n = OffsetOfDescriptorAt base taggedSize n ∧
    SizeFor base taggedSize n = kHeaderSize base taggedSize + n * 3 * taggedSize ∧
    kHeaderSize base taggedSize ≤ offset base taggedSize (ToKeyIndex i) ∧
    offset base taggedSize (ToKeyIndex i) < SizeFor base taggedSize n ∧
    kHeaderSize base taggedSize ≤ offset base taggedSize (ToDetailsIndex i) ∧
    offset base taggedSize (ToDetailsIndex i) < SizeFor base taggedSize n ∧
    kHeaderSize base taggedSize ≤ offset base taggedSize (ToValueIndex i) ∧
    offset base taggedSize (ToValueIndex i) < SizeFor base taggedSize n ∧
    OffsetOfDescriptorAt base taggedSize a =
      kHeaderSize base taggedSize + a * 3 * taggedSize := by
  have hmul : ∀ c, c < n * 3 → c * taggedSize < n * 3 * taggedSize :=
    fun c hc => (Nat.mul_lt_mul_right hts).mpr hc
  have hk : ToKeyIndex i < n * 3 := by
    unfold ToKeyIndex kEntrySize kEntryKeyIndex; omega
  have hd : ToDetailsIndex i < n * 3 := by
    unfold ToDetailsIndex kEntrySize kEntryDetailsIndex; omega
  have hv : ToValueIndex i < n * 3 := by
    unfold ToValueIndex kEntrySize kEntryValueIndex; omega
  exact ⟨rfl, rfl, Nat.le_add_right _ _, Nat.add_lt_add_left (hmul _ hk) _,
    Nat.le_add_right _ _, Nat.add_lt_add_left (hmul _ hd) _,
    Nat.le_add_right _ _, Nat.add_lt_add_left (hmul _ hv) _, rfl⟩

/-! ## Claims about the table operations (spec-modelled) -/

/-- C3: immediately after `initTable` and after every `append` that does not
consume the slot, every slot in `[active_count, capacity)` holds the
initialization placeholder, whose value component is the shared
"no constraint" singleton, with the shared empty-string sentinel as key and
empty details. -/
theorem slack_holds_placeholder :
    (∀ enumCache nof slack i, i < nof + slack → nof ≤ i →
        getRecord (initTable enumCache nof slack) i = placeholderRecord) ∧
    (∀ t d, t.records.length = t.number_of_all_descriptors →
        t.number_of_descriptors < t.number_of_all_descriptors →
        slackIsPlaceholder t → slackIsPlaceholder (append t d)) ∧
    placeholderRecord.value = ValueSlot.noConstraint ∧
    placeholderRecord.key = kEmptyStringSentinel ∧
    placeholderRecord.details = emptyDetails := by
  refine ⟨?_, ?_, rfl, rfl, rfl⟩
  · intro enumCache nof slack i hlt _hge
    unfold initTable getRecord
    rw [List.getD_eq_getElem?_getD, List.getElem?_replicate, if_pos hlt]
    rfl
  · intro t d hlen hcap hslack i hlt hge
    have hcap2 : (append t d).number_of_all_descriptors = t.number_of_all_descriptors := rfl
    have hcnt : (append t d).number_of_descriptors = t.number_of_descriptors + 1 := rfl
    rw [hcap2] at hlt
    rw [hcnt] at hge
    show (append t d).records.getD i placeholderRecord = placeholderRecord
    have h1 : (append t d).records =
        t.records.set t.number_of_descriptors (appendedRecord t d) := rfl
    rw [h1, List.getD_eq_getElem?_getD, List.getElem?_set_ne (by omega),
      ← List.getD_eq_getElem?_getD]
    exact hslack i hlt (by omega)

/-- Witness for C3: the slack of a freshly initialized table, and the slack
slot not consumed by a concrete append, both hold the placeholder. -/
theorem slack_holds_placeholder_witness :
    getRecord (initTable 0 1 2) 2 = placeholderRecord ∧
    getRecord (append tAppend dExample) 2 = placeholderRecord :=
  ⟨slack_holds_placeholder.1 0 1 2 2 (by decide) (by decide),
   slack_holds_placeholder.2.1 tAppend dExample (by decide) (by decide) (by decide) 2
     (by decide) (by decide)⟩

/-- C4: `append` adds the record at index `active_count` with its
enumeration-order tag auto-assigned to the current `active_count`, and the
state change is ordered write-then-publish: the record's key, details and
value are fully populated first (`appendWriteRecord`, which leaves
`active_count` and every already-active record untouched), and only then is
`active_count` incremented by one (`publish`). -/
theorem append_populates_then_publishes (t : DescriptorTable) (d : Descriptor)
    (hlen : t.records.length = t.number_of_all_descriptors)
    (hcap : t.number_of_descriptors < t.number_of_all_descriptors) :
    append t d = publish (appendWriteRecord t d) ∧
    (append t d).number_of_descriptors = t.number_of_descriptors + 1 ∧
    getRecord (append t d) t.number_of_descriptors = appendedRecord t d ∧
    (appendedRecord t d).key = d.key ∧
    (appendedRecord t d).details = withEnumerationIndex d.details t.number_of_descriptors ∧
    (appendedRecord t d).value = d.value ∧
    (appendWriteRecord t d).number_of_descriptors = t.number_of_descriptors ∧
    (∀ i, i < t.number_of_descriptors →
        getRecord (appendWriteRecord t d) i = getRecord t i) := by
  refine ⟨rfl, rfl, ?_, rfl, rfl, rfl, rfl, ?_⟩
  · show (append t d).records.getD t.number_of_descriptors placeholderRecord = _
    have h1 : (append t d).records =
        t.records.set t.number_of_descriptors (appendedRecord t d) := rfl
    rw [h1, List.getD_eq_getElem?_getD, List.getElem?_set_self (by omega)]
    rfl
  · intro i hi
    show (appendWriteRecord t d).records.getD i placeholderRecord = getRecord t i
    have h1 : (appendWriteRecord t d).records =
        t.records.set t.number_of_descriptors (appendedRecord t d) := rfl
    rw [h1, List.getD_eq_getElem?_getD, List.getElem?_set_ne (by omega),
      ← List.getD_eq_getElem?_getD]
    rfl

/-- Witness for C4 at a concrete table and descriptor. -/
theorem append_populates_then_publishes_witness :
    (append tAppend dExample).number_of_descriptors = tAppend.number_of_descriptors + 1 :=
  (append_populates_then_publishes tAppend dExample (by decide) (by decide)).2.1

/-- C5: for every source table, every `n ≤ active_count` and every slack,
`copyUpTo src n slack` yields a table of capacity `n + slack` with
`active_count = n` whose first `n` records are a verbatim copy of the
source's (`isEqualUpTo` holds). -/
theorem copyUpTo_spec (src : DescriptorTable) (n slack : Nat)
    (_hn : n ≤ src.number_of_descriptors) :
    (copyUpTo src n slack).number_of_all_descriptors = n + slack ∧
    (copyUpTo src n slack).number_of_descriptors = n ∧
    isEqualUpTo (copyUpTo src n slack) src n = true := by
  refine ⟨rfl, rfl, ?_⟩
  unfold isEqualUpTo
  rw [List.all_eq_true]
  intro x hx
  rw [List.mem_range] at hx
  rw [decide_eq_true_eq]
  show (copyUpTo src n slack).records.getD x placeholderRecord = getRecord src x
  have h1 : (copyUpTo src n slack).records = (List.range (n + slack)).map
      (fun i => if i < n then getRecord src i else placeholderRecord) := rfl
  rw [h1, getD_map_range _ _ (by omega), if_pos hx]

/-- Witness for C5 at a concrete table, `n = 1`, `slack = 1`. -/
theorem copyUpTo_spec_witness : isEqualUpTo (copyUpTo tAppend 1 1) tAppend 1 = true :=
  (copyUpTo_spec tAppend 1 1 (by decide)).2.2

/-- C6: `allocate` with `count = 0` returns the shared zero-capacity empty
singleton and performs no fresh allocation (the fresh-id counter is
unchanged), so `allocate(0, 0)` returns the same identity across all calls. -/
theorem allocate_zero_is_empty_singleton :
    (∀ nextId slack, allocate nextId 0 slack = (TableRef.emptySingleton, nextId)) ∧
    (∀ id1 id2, (allocate id1 0 0).1 = (allocate id2 0 0).1) := by
  exact ⟨fun nextId slack => rfl, fun id1 id2 => rfl⟩

/-- C7: `copyUpToAddAttributes` over a heap of tables produces a new table in
which every copied record's details report the overlaid attribute bits, while
every pre-existing table on the heap — in particular the source — is left
unchanged. -/
theorem copyUpToAddAttributes_overlay_and_frame (heap : List DescriptorTable)
    (srcRef n attributes slack i r : Nat) (hi : i < n) (hr : r < heap.length) :
    (getDetails ((copyUpToAddAttributesOnHeap heap srcRef n attributes slack).1.getD
        (copyUpToAddAttributesOnHeap heap srcRef n attributes slack).2 emptyTable)
      i).attributes &&& attributes = attributes ∧
    (copyUpToAddAttributesOnHeap heap srcRef n attributes slack).1.getD r emptyTable =
      heap.getD r emptyTable := by
  constructor
  · have h1 : (copyUpToAddAttributesOnHeap heap srcRef n attributes slack).1.getD
        (copyUpToAddAttributesOnHeap heap srcRef n attributes slack).2 emptyTable =
        copyUpToAddAttributes (heap.getD srcRef emptyTable) n attributes slack := by
      show (heap ++
        [copyUpToAddAttributes (heap.getD srcRef emptyTable) n attributes slack]).getD
          heap.length emptyTable = _
      rw [List.getD_eq_getElem?_getD, List.getElem?_concat_length]
      rfl
    rw [h1]
    show ((copyUpToAddAttributes (heap.getD srcRef emptyTable) n attributes
      slack).records.getD i placeholderRecord).details.attributes &&& attributes
        = attributes
    have h2 : (copyUpToAddAttributes (heap.getD srcRef emptyTable) n attributes
        slack).records = (List.range (n + slack)).map
        (fun j => if j < n then
          overlayAttributes (getRecord (heap.getD srcRef emptyTable) j) attributes
          else placeholderRecord) := rfl
    rw [h2, getD_map_range _ _ (by omega), if_pos hi]
    exact or_and_cancel _ _
  · show (heap ++ [_]).getD r emptyTable = heap.getD r emptyTable
    rw [List.getD_eq_getElem?_getD, List.getElem?_append_left hr,
      ← List.getD_eq_getElem?_getD]

/-- Witness for C7: a read-only-style bit (bit 0) overlaid on a concrete
one-table heap. -/
theorem copyUpToAddAttributes_overlay_and_frame_witness :
    (getDetails ((copyUpToAddAttributesOnHeap [tAppend] 0 1 1 0).1.getD
        (copyUpToAddAttributesOnHeap [tAppend] 0 1 1 0).2 emptyTable)
      0).attributes &&& 1 = 1 ∧
    (copyUpToAddAttributesOnHeap [tAppend] 0 1 1 0).1.getD 0 emptyTable =
      [tAppend].getD 0 emptyTable :=
  copyUpToAddAttributes_overlay_and_frame [tAppend] 0 1 1 0 0 0 (by decide) (by decide)

/-- Witness for C10 at a concrete 64-bit-style layout: `base = 8`,
`taggedSize = 8`, two records, first record. -/
theorem record_slots_within_object_size_witness :
    SizeFor 8 8 2 = OffsetOfDescriptorAt 8 8 2 ∧
    SizeFor 8 8 2 = kHeaderSize 8 8 + 2 * 3 * 8 ∧
    kHeaderSize 8 8 ≤ offset 8 8 (ToKeyIndex 0) ∧
    offset 8 8 (ToKeyIndex 0) < SizeFor 8 8 2 ∧
    kHeaderSize 8 8 ≤ offset 8 8 (ToDetailsIndex 0) ∧
    offset 8 8 (ToDetailsIndex 0) < SizeFor 8 8 2 ∧
    kHeaderSize 8 8 ≤ offset 8 8 (ToValueIndex 0) ∧
    offset 8 8 (ToValueIndex 0) < SizeFor 8 8 2 ∧
    OffsetOfDescriptorAt 8 8 1 = kHeaderSize 8 8 + 1 * 3 * 8 :=
  record_slots_within_object_size 8 8 2 0 1 (by decide) (by decide)

/-- Each record of a sorted table is the original record, possibly with only
its sorted-order position tag overwritten. -/
theorem getRecord_sortTable (hash : Nat → Nat) (t : DescriptorTable) (i : Nat) :
    getRecord (sortTable hash t) i = getRecord t i ∨
    getRecord (sortTable hash t) i =
      setPointer (getRecord t i) ((sortedPermutation hash t).getD i 0) := by
  have h1 : (sortTable hash t).records = (List.range t.records.length).map
      (fun j => if j < t.number_of_descriptors then
        setPointer (getRecord t j) ((sortedPermutation hash t).getD j 0)
        else getRecord t j) := rfl
  by_cases h : i < t.records.length
  · show getRecord (sortTable hash t) i = _ ∨ _
    unfold getRecord
    rw [h1, getD_map_range _ _ h]
    by_cases h2 : i < t.number_of_descriptors
    · right
      rw [if_pos h2]
      rfl
    · left
      rw [if_neg h2]
      rfl
  · left
    unfold getRecord
    rw [h1, getD_map_range_ge _ _ (by omega), List.getD_eq_getElem?_getD,
      List.getElem?_eq_none (by omega)]
    rfl

/-- C8: `sortTable` never moves physical records — after sorting, every record
still holds the same key, value and details payload (attribute bits,
enumeration-order tag and opaque payload; everything apart from the
sorted-order position tag) at the same physical index, and the header counts
are untouched, so only the logical hash order used by search is permuted. -/
theorem sort_never_moves_records (hash : Nat → Nat) (t : DescriptorTable) (i : Nat) :
    (sortTable hash t).number_of_all_descriptors = t.number_of_all_descriptors ∧
    (sortTable hash t).number_of_descriptors = t.number_of_descriptors ∧
    (getRecord (sortTable hash t) i).key = (getRecord t i).key ∧
    (getRecord (sortTable hash t) i).value = (getRecord t i).value ∧
    (getRecord (sortTable hash t) i).details.attributes =
      (getRecord t i).details.attributes ∧
    (getRecord (sortTable hash t) i).details.enumerationIndex =
      (getRecord t i).details.enumerationIndex ∧
    (getRecord (sortTable hash t) i).details.payload =
      (getRecord t i).details.payload := by
  rcases getRecord_sortTable hash t i with h | h <;> rw [h] <;>
    exact ⟨rfl, rfl, rfl, rfl, rfl, rfl, rfl⟩

/-- C9: a field record whose value slot holds a weak type-constraint reference
whose target has been cleared by the collector reads back as "unconstrained"
on `getFieldType` — a total function, so no failure is possible — rather than
as a dangling reference. -/
theorem cleared_weak_reads_unconstrained (t : DescriptorTable) (i m : Nat)
    (live : Nat → Bool)
    (hweak : (getRecord t i).value = ValueSlot.weakConstraint (some m))
    (hdead : live m = false) :
    getFieldType (clearDeadWeakRefs live t) i = FieldType.unconstrained := by
  have hi : i < t.records.length := by
    by_contra hcon
    push_neg at hcon
    unfold getRecord at hweak
    rw [List.getD_eq_getElem?_getD, List.getElem?_eq_none hcon] at hweak
    simp [placeholderRecord] at hweak
  have hrec : getRecord t i = t.records[i] := by
    unfold getRecord
    rw [List.getD_eq_getElem?_getD, List.getElem?_eq_getElem hi]
    rfl
  have h1 : (clearDeadWeakRefs live t).records = t.records.map (clearWeakSlot live) := rfl
  unfold getFieldType getRecord
  rw [h1, List.getD_eq_getElem?_getD, List.getElem?_map, List.getElem?_eq_getElem hi]
  rw [hrec] at hweak
  simp [clearWeakSlot, hweak, hdead, unwrapFieldType]

/-- Witness for C9: a concrete weak constraint on shape `7`, cleared by a
collector in which nothing is live. -/
theorem cleared_weak_reads_unconstrained_witness :
    getFieldType (clearDeadWeakRefs (fun _ => false) tWeak) 0 = FieldType.unconstrained :=
  cleared_weak_reads_unconstrained tWeak 0 7 (fun _ => false) (by decide) (by decide)

/-! ## Search equals linear scan -/

/-- The lower-bound binary search returns the least index of `[lo, hi]`
satisfying an upward-closed predicate. -/
theorem binSearchLowAux_spec (P : Nat → Bool) :
    ∀ fuel lo hi, lo ≤ hi → hi - lo ≤ fuel →
      (∀ x y, lo ≤ x → x ≤ y → y < hi → P x = true → P y = true) →
      lo ≤ binSearchLowAux P fuel lo hi ∧
      binSearchLowAux P fuel lo hi ≤ hi ∧
      (∀ x, lo ≤ x → x < binSearchLowAux P fuel lo hi → P x = false) ∧
      (binSearchLowAux P fuel lo hi < hi → P (binSearchLowAux P fuel lo hi) = true) := by
  intro fuel
  induction fuel with
  | zero =>
    intro lo hi hle hfuel _hmono
    have heq : hi = lo := by omega
    subst heq
    unfold binSearchLowAux
    exact ⟨le_refl _, le_refl _, fun x hx1 hx2 => absurd hx2 (by omega),
      fun h => absurd h (by omega)⟩
  | succ fuel ih =>
    intro lo hi hle hfuel hmono
    unfold binSearchLowAux
    by_cases h : lo < hi
    · rw [if_pos h]
      have hmhi : lo + (hi - lo) / 2 < hi := by omega
      by_cases hp : P (lo + (hi - lo) / 2) = true
      · rw [if_pos hp]
        obtain ⟨h1, h2, h3, h4⟩ := ih lo (lo + (hi - lo) / 2) (Nat.le_add_right _ _)
          (by omega) (fun x y hx hxy hy hPx => hmono x y hx hxy (by omega) hPx)
        refine ⟨h1, by omega, h3, fun _ => ?_⟩
        rcases Nat.eq_or_lt_of_le h2 with he | hl
        · rw [he]; exact hp
        · exact h4 hl
      · rw [if_neg hp]
        obtain ⟨h1, h2, h3, h4⟩ := ih (lo + (hi - lo) / 2 + 1) hi (by omega) (by omega)
          (fun x y hx hxy hy hPx => hmono x y (by omega) hxy hy hPx)
        refine ⟨by omega, h2, ?_, h4⟩
        intro x hx1 hx2
        by_cases hx3 : lo + (hi - lo) / 2 + 1 ≤ x
        · exact h3 x hx3 hx2
        · cases hx4 : P x with
          | false => rfl
          | true =>
            exact absurd (hmono x (lo + (hi - lo) / 2) hx1 (by omega) hmhi hx4) hp
    · rw [if_neg h]
      exact ⟨le_refl _, hle, fun x hx1 hx2 => absurd hx2 (by omega),
        fun hlt => absurd hlt h⟩

/-- If no record of `[x, x + rem)` matches, the linear scan reports
`kNotFound`. -/
theorem linearScanFrom_not_found (t : DescriptorTable) (name : Nat) :
    ∀ rem x, (∀ y, x ≤ y → y < x + rem → getKey t y ≠ name) →
      linearScanFrom t name x rem = kNotFound := by
  intro rem
  induction rem with
  | zero => intro x _; rfl
  | succ rem ih =>
    intro x h
    unfold linearScanFrom
    rw [if_neg (h x (le_refl x) (by omega))]
    exact ih (x + 1) (fun y hy1 hy2 => h y (by omega) (by omega))

/-- The linear scan returns the first matching index. -/
theorem linearScanFrom_finds (t : DescriptorTable) (name i : Nat)
    (hkey : getKey t i = name) :
    ∀ rem x, x ≤ i → i < x + rem →
      (∀ y, x ≤ y → y < i → getKey t y ≠ name) →
      linearScanFrom t name x rem = (i : Int) := by
  intro rem
  induction rem with
  | zero => intro x _ h2 _; exact absurd h2 (by omega)
  | succ rem ih =>
    intro x h1 h2 h3
    unfold linearScanFrom
    by_cases hx : getKey t x = name
    · have hxi : x = i := by
        by_contra hne
        exact (h3 x (le_refl x) (by omega)) hx
      rw [if_pos hx, hxi]
    · rw [if_neg hx]
      have hxi : x < i := by
        rcases Nat.eq_or_lt_of_le h1 with he | hl
        · rw [he] at hx; exact absurd hkey hx
        · exact hl
      exact ih (x + 1) hxi (by omega) (fun y hy1 hy2 => h3 y (by omega) hy2)

/-- If no record of `[0, limit)` matches, the probe reports `kNotFound`
wherever it starts. -/
theorem probeFrom_not_found (hash : Nat → Nat) (t : DescriptorTable)
    (name limit : Nat) (hnone : ∀ i, i < limit → getKey t i ≠ name) :
    ∀ rem j, probeFrom hash t name limit j rem = kNotFound := by
  intro rem
  induction rem with
  | zero => intro j; rfl
  | succ rem ih =>
    intro j
    unfold probeFrom
    by_cases h1 : hash (getKey t (sortedKeyIndex t j)) ≠ hash name
    · rw [if_pos h1]
    · rw [if_neg h1]
      by_cases h2 : getKey t (sortedKeyIndex t j) = name
      · rw [if_pos h2, if_neg (fun hlt => (hnone _ hlt) h2)]
      · rw [if_neg h2]
        exact ih (j + 1)

/-- If physical index `i < limit` holds the probe key, is reachable as logical
position `j`, and the probe starts inside the equal-hash run at or before `j`,
the probe returns `i`. -/
theorem probeFrom_finds (hash : Nat → Nat) (t : DescriptorTable)
    (name limit i j : Nat)
    (hrange : ∀ x, x < t.number_of_descriptors →
      sortedKeyIndex t x < t.number_of_descriptors)
    (hdistinct : ∀ i1, i1 < t.number_of_descriptors →
      ∀ i2, i2 < t.number_of_descriptors → getKey t i1 = getKey t i2 → i1 = i2)
    (hin : i < t.number_of_descriptors) (hlim : i < limit)
    (hkey : getKey t i = name)
    (hj : j < t.number_of_descriptors) (hskj : sortedKeyIndex t j = i) :
    ∀ rem x, x ≤ j → j < x + rem →
      (∀ y, x ≤ y → y ≤ j → hash (getSortedKey t y) = hash name) →
      probeFrom hash t name limit x rem = (i : Int) := by
  intro rem
  induction rem with
  | zero => intro x hx1 hx2 _; exact absurd hx2 (by omega)
  | succ rem ih =>
    intro x hx1 hx2 hhash
    unfold probeFrom
    have hxeq : hash (getKey t (sortedKeyIndex t x)) = hash name :=
      hhash x (le_refl x) hx1
    rw [if_neg (not_not_intro hxeq)]
    by_cases h2 : getKey t (sortedKeyIndex t x) = name
    · rw [if_pos h2]
      have hxn : x < t.number_of_descriptors := by omega
      have hsix : sortedKeyIndex t x < t.number_of_descriptors := hrange x hxn
      have heqi : sortedKeyIndex t x = i := by
        apply hdistinct _ hsix _ hin
        rw [h2, hkey]
      rw [heqi, if_pos hlim]
    · rw [if_neg h2]
      have hxj : x < j := by
        rcases Nat.eq_or_lt_of_le hx1 with he | hl
        · rw [he, hskj, hkey] at h2
          exact absurd rfl h2
        · exact hl
      exact ih (x + 1) hxj (by omega) (fun y hy1 hy2 => hhash y (by omega) hy2)

/-- C1: for every table satisfying the sortedness/uniqueness invariant that
`sortTable` establishes, and every name, `search name limit` with
`limit ≤ active_count` — in particular `limit = active_count` — returns
exactly what a linear scan of records `[0, limit)` returns: the first index
`i` with `getKey i = name` if one exists, and the `kNotFound` sentinel `-1`
otherwise, including when the limit argument excludes all matching entries. -/
theorem search_eq_linear_scan (hash : Nat → Nat) (t : DescriptorTable)
    (name limit : Nat) (hlim : limit ≤ t.number_of_descriptors)
    (hinv : SortedInvariant hash t) :
    search hash t name limit = linearScan t name limit := by
  obtain ⟨hrange, hsurj, hmono, hdistinct⟩ := hinv
  by_cases hmatch : ∃ i, i < limit ∧ getKey t i = name
  · obtain ⟨i, hilim, hikey⟩ := hmatch
    have hin : i < t.number_of_descriptors := by omega
    have hfirst : ∀ y, y < i → getKey t y ≠ name := by
      intro y hy hkey2
      have : y = i := hdistinct y (by omega) i hin (by rw [hkey2, hikey])
      omega
    have hlin : linearScan t name limit = (i : Int) :=
      linearScanFrom_finds t name i hikey limit 0 (Nat.zero_le i) (by omega)
        (fun y _ hy2 => hfirst y hy2)
    rw [hlin]
    obtain ⟨j, hjn, hskj⟩ := hsurj i hin
    have hgskj : getSortedKey t j = name := by
      unfold getSortedKey
      rw [hskj, hikey]
    have hPj : searchPred hash t name j = true := by
      unfold searchPred
      rw [hgskj]
      simp
    have hPmono : ∀ x y, 0 ≤ x → x ≤ y → y < t.number_of_descriptors →
        searchPred hash t name x = true → searchPred hash t name y = true := by
      intro x y _ hxy hy hPx
      unfold searchPred at hPx ⊢
      rw [decide_eq_true_eq] at hPx ⊢
      exact le_trans hPx (hmono y hy x hxy)
    obtain ⟨hb1, hb2, hb3, hb4⟩ := binSearchLowAux_spec (searchPred hash t name)
      (t.number_of_descriptors - 0) 0 t.number_of_descriptors (Nat.zero_le _)
      (le_refl _) hPmono
    have hj0le : binSearchLowAux (searchPred hash t name)
        (t.number_of_descriptors - 0) 0 t.number_of_descriptors ≤ j := by
      by_contra hcon
      push_neg at hcon
      have hfalse := hb3 j (Nat.zero_le j) hcon
      rw [hPj] at hfalse
      exact Bool.noConfusion hfalse
    have hj0n : binSearchLowAux (searchPred hash t name)
        (t.number_of_descriptors - 0) 0 t.number_of_descriptors <
        t.number_of_descriptors := by omega
    have hPj0 : hash name ≤ hash (getSortedKey t (binSearchLowAux
        (searchPred hash t name) (t.number_of_descriptors - 0) 0
        t.number_of_descriptors)) := by
      have := hb4 hj0n
      unfold searchPred at this
      rw [decide_eq_true_eq] at this
      exact this
    have hrun : ∀ y, binSearchLowAux (searchPred hash t name)
        (t.number_of_descriptors - 0) 0 t.number_of_descriptors ≤ y → y ≤ j →
        hash (getSortedKey t y) = hash name := by
      intro y hy1 hy2
      have hyn : y < t.number_of_descriptors := by omega
      have hle1 : hash (getSortedKey t y) ≤ hash name := by
        have h5 := hmono j hjn y hy2
        rw [hgskj] at h5
        exact h5
      have hle2 : hash name ≤ hash (getSortedKey t y) :=
        le_trans hPj0 (hmono y hyn _ hy1)
      omega
    show probeFrom hash t name limit
      (binSearchLowAux (searchPred hash t name) (t.number_of_descriptors - 0)
        0 t.number_of_descriptors)
      (t.number_of_descriptors - binSearchLowAux (searchPred hash t name)
        (t.number_of_descriptors - 0) 0 t.number_of_descriptors) = (i : Int)
    exact probeFrom_finds hash t name limit i j hrange hdistinct hin hilim hikey
      hjn hskj _ _ hj0le (by omega) hrun
  · push_neg at hmatch
    have h1 : linearScan t name limit = kNotFound :=
      linearScanFrom_not_found t name limit 0 (fun y _ hy2 => hmatch y (by omega))
    have h2 : search hash t name limit = kNotFound := by
      show probeFrom hash t name limit _ _ = kNotFound
      exact probeFrom_not_found hash t name limit hmatch _ _
    rw [h1, h2]

/-- Witness for C1: the concrete hash-sorted two-record table, searched over
its full active count. -/
theorem search_eq_linear_scan_witness :
    search hashMod7 tSorted 9 2 = linearScan tSorted 9 2 :=
  search_eq_linear_scan hashMod7 tSorted 9 2 (by decide) (by decide)

/-! ## `sortTable` establishes the invariant `search` relies on

These results tie C1's hypothesis to `sortTable`: for any table with distinct
keys among the active records, the invariant assumed by
`search_eq_linear_scan` holds after sorting.
-/

theorem insertSorted_perm (le : Nat → Nat → Bool) (x : Nat) :
    ∀ l : List Nat, (insertSorted le x l).Perm (x :: l) := by
  intro l
  induction l with
  | nil => exact List.Perm.refl _
  | cons y ys ih =>
    unfold insertSorted
    by_cases h : le x y = true
    · rw [if_pos h]
    · rw [if_neg h]
      exact (ih.cons y).trans (List.Perm.swap x y ys)

theorem insertionSort_perm (le : Nat → Nat → Bool) :
    ∀ l : List Nat, (insertionSort le l).Perm l := by
  intro l
  induction l with
  | nil => exact List.Perm.refl _
  | cons x xs ih =>
    unfold insertionSort
    exact (insertSorted_perm le x (insertionSort le xs)).trans (ih.cons x)

theorem insertSorted_pairwise (le : Nat → Nat → Bool)
    (htot : ∀ a b, le a b = true ∨ le b a = true)
    (htrans : ∀ a b c, le a b = true → le b c = true → le a c = true) (x : Nat) :
    ∀ l, l.Pairwise (fun a b => le a b = true) →
      (insertSorted le x l).Pairwise (fun a b => le a b = true) := by
  intro l
  induction l with
  | nil => intro _; exact List.pairwise_singleton _ _
  | cons y ys ih =>
    intro hp
    rw [List.pairwise_cons] at hp
    obtain ⟨hy, hys⟩ := hp
    unfold insertSorted
    by_cases h : le x y = true
    · rw [if_pos h, List.pairwise_cons]
      refine ⟨?_, List.pairwise_cons.mpr ⟨hy, hys⟩⟩
      intro b hb
      rcases List.mem_cons.mp hb with hbx | hbys
      · rw [hbx]; exact h
      · exact htrans x y b h (hy b hbys)
    · rw [if_neg h, List.pairwise_cons]
      have hyx : le y x = true := (htot x y).resolve_left h
      refine ⟨?_, ih hys⟩
      intro b hb
      have hmem := (insertSorted_perm le x ys).mem_iff.mp hb
      rcases List.mem_cons.mp hmem with hbx | hbys
      · rw [hbx]; exact hyx
      · exact hy b hbys

theorem insertionSort_pairwise (le : Nat → Nat → Bool)
    (htot : ∀ a b, le a b = true ∨ le b a = true)
    (htrans : ∀ a b c, le a b = true → le b c = true → le a c = true) :
    ∀ l : List Nat, (insertionSort le l).Pairwise (fun a b => le a b = true) := by
  intro l
  induction l with
  | nil => exact List.Pairwise.nil
  | cons x xs ih =>
    unfold insertionSort
    exact insertSorted_pairwise le htot htrans x (insertionSort le xs) ih

theorem sortLE_total (hash : Nat → Nat) (t : DescriptorTable) :
    ∀ a b, sortLE hash t a b = true ∨ sortLE hash t b a = true := by
  intro a b
  unfold sortLE
  simp only [Bool.or_eq_true, Bool.and_eq_true, decide_eq_true_eq, beq_iff_eq]
  omega

theorem sortLE_trans (hash : Nat → Nat) (t : DescriptorTable) :
    ∀ a b c, sortLE hash t a b = true → sortLE hash t b c = true →
      sortLE hash t a c = true := by
  intro a b c hab hbc
  unfold sortLE at hab hbc ⊢
  simp only [Bool.or_eq_true, Bool.and_eq_true, decide_eq_true_eq, beq_iff_eq]
    at hab hbc ⊢
  omega

theorem getKey_sortTable (hash : Nat → Nat) (t : DescriptorTable) (i : Nat) :
    getKey (sortTable hash t) i = getKey t i := by
  rcases getRecord_sortTable hash t i with h | h
  · unfold getKey
    rw [h]
  · unfold getKey
    rw [h]
    rfl

theorem sortedKeyIndex_sortTable (hash : Nat → Nat) (t : DescriptorTable) (j : Nat)
    (h1 : j < t.number_of_descriptors) (h2 : j < t.records.length) :
    sortedKeyIndex (sortTable hash t) j = (sortedPermutation hash t).getD j 0 := by
  unfold sortedKeyIndex getDetails getRecord
  have hrec : (sortTable hash t).records = (List.range t.records.length).map
      (fun x => if x < t.number_of_descriptors then
        setPointer (getRecord t x) ((sortedPermutation hash t).getD x 0)
        else getRecord t x) := rfl
  rw [hrec, getD_map_range _ _ h2, if_pos h1]
  rfl

/-- For every table whose active records carry pairwise distinct keys,
`sortTable` establishes the sortedness/uniqueness invariant that
`search_eq_linear_scan` assumes. -/
theorem sortTable_establishes_invariant (hash : Nat → Nat) (t : DescriptorTable)
    (hlen : t.number_of_descriptors ≤ t.records.length)
    (hdist : ∀ i1, i1 < t.number_of_descriptors →
      ∀ i2, i2 < t.number_of_descriptors → getKey t i1 = getKey t i2 → i1 = i2) :
    SortedInvariant hash (sortTable hash t) := by
  have hperm : (sortedPermutation hash t).Perm
      (List.range t.number_of_descriptors) := insertionSort_perm _ _
  have hplen : (sortedPermutation hash t).length = t.number_of_descriptors := by
    rw [hperm.length_eq, List.length_range]
  have hgetD : ∀ j, ∀ hj : j < (sortedPermutation hash t).length,
      (sortedPermutation hash t).getD j 0 = (sortedPermutation hash t)[j] := by
    intro j hj
    rw [List.getD_eq_getElem?_getD, List.getElem?_eq_getElem hj]
    rfl
  have hbound : ∀ j, j < t.number_of_descriptors →
      (sortedPermutation hash t).getD j 0 < t.number_of_descriptors := by
    intro j hj
    have hj2 : j < (sortedPermutation hash t).length := by omega
    rw [hgetD j hj2, ← List.mem_range]
    exact hperm.mem_iff.mp (List.getElem_mem hj2)
  have hcnt : (sortTable hash t).number_of_descriptors = t.number_of_descriptors := rfl
  have hski : ∀ j, j < t.number_of_descriptors →
      sortedKeyIndex (sortTable hash t) j = (sortedPermutation hash t).getD j 0 :=
    fun j hj => sortedKeyIndex_sortTable hash t j hj (lt_of_lt_of_le hj hlen)
  have hpair : (sortedPermutation hash t).Pairwise
      (fun a b => sortLE hash t a b = true) :=
    insertionSort_pairwise (sortLE hash t) (sortLE_total hash t)
      (sortLE_trans hash t) (List.range t.number_of_descriptors)
  refine ⟨?_, ?_, ?_, ?_⟩
  · intro j hj
    rw [hcnt] at hj
    rw [hcnt, hski j hj]
    exact hbound j hj
  · intro i hi
    rw [hcnt] at hi
    have hmem : i ∈ sortedPermutation hash t :=
      hperm.mem_iff.mpr (List.mem_range.mpr hi)
    obtain ⟨j, hj, hji⟩ := List.mem_iff_getElem.mp hmem
    refine ⟨j, by omega, ?_⟩
    rw [hski j (by omega), hgetD j hj]
    exact hji
  · intro j2 hj2 j1 hj1
    rw [hcnt] at hj2
    have hj1n : j1 < t.number_of_descriptors := by omega
    unfold getSortedKey
    rw [hski j1 hj1n, hski j2 hj2, getKey_sortTable, getKey_sortTable]
    rcases Nat.eq_or_lt_of_le hj1 with he | hl
    · rw [he]
    · have hle := List.pairwise_iff_getElem.mp hpair j1 j2 (by omega) (by omega) hl
      rw [hgetD j1 (by omega), hgetD j2 (by omega)]
      unfold sortLE at hle
      simp only [Bool.or_eq_true, Bool.and_eq_true, decide_eq_true_eq,
        beq_iff_eq] at hle
      omega
  · intro i1 hi1 i2 hi2 hkeys
    rw [hcnt] at hi1 hi2
    rw [getKey_sortTable, getKey_sortTable] at hkeys
    exact hdist i1 hi1 i2 hi2 hkeys

end DescriptorArray
